import Mathlib

/-!
Shallow embedding of the granola-cli participant-extraction and document-store
logic (src/lib/attendees.ts, src/lib/output.ts). JavaScript values flowing
through the untyped `people` structures are modelled by the inductive `JVal`;
a JavaScript runtime exception (a TypeError from calling a string method on a
non-string value, a SyntaxError from JSON.parse) is modelled by
`Option`/`Except` failure. JavaScript strings are Lean strings (toLowerCase
modelled character-wise, adequate on the ASCII data the claims exercise);
`updated_at` date strings are modelled by their parsed millisecond timestamps.
-/

namespace Granola

/-- A JavaScript (JSON-like) runtime value. -/
inductive JVal where
  | vUndefined
  | vNull
  | vBool (b : Bool)
  | vNum (n : Int)
  | vStr (s : String)
  | vArr (elems : List JVal)
  | vObj (fields : List (String × JVal))
deriving Repr

namespace JVal

/-- JavaScript truthiness of a value (NaN is not modelled; numbers are Int). -/
def truthy : JVal → Bool
  | .vUndefined => false
  | .vNull => false
  | .vBool b => b
  | .vNum n => n != 0
  | .vStr s => s != ""
  | .vArr _ => true
  | .vObj _ => true

/-- Whether `typeof v === 'object'` holds in JavaScript (true for objects,
arrays and null). -/
def typeofIsObject : JVal → Bool
  | .vNull => true
  | .vArr _ => true
  | .vObj _ => true
  | _ => false

end JVal

open JVal

/-- JavaScript property read `v[k]`, total as used by the source: every access
either sits behind an optional chain or a truthiness/typeof guard, or is an
access on a primitive (which yields undefined, never throws). For objects a
duplicate key keeps the last binding, as JSON.parse and object literals do. -/
def jsGet : JVal → String → JVal
  | .vObj fields, k =>
    fields.foldl (fun acc p => if p.1 = k then some p.2 else acc) none |>.getD .vUndefined
  | _, _ => .vUndefined

/-- JavaScript `a || b` on values: the left operand when truthy, else the
right operand. -/
def jsOr (a b : JVal) : JVal := if truthy a then a else b

/-- JavaScript `.toLowerCase()` on a string (character-wise ASCII lowering,
adequate for the data the claims exercise). -/
def strToLower (s : String) : String := String.mk (s.toList.map Char.toLower)

/-- Embedding of `lower` (attendees.ts line 28): `(s || '').toLowerCase()`.
Falsy values collapse to the empty string; a truthy non-string value makes
`toLowerCase` throw a TypeError, modelled by `none`. -/
def lower (v : JVal) : Option String :=
  if truthy v then
    match v with
    | .vStr s => some (strToLower s)
    | _ => none
  else some ""

/-- Characters of a string before the first `@`. -/
def beforeAt : List Char → List Char
  | [] => []
  | c :: r => if c = '@' then [] else c :: beforeAt r

/-- The part of an email string before the first `@`, i.e. the JavaScript
expression `email.split('@')[0]`. -/
def emailLocalPart (s : String) : String := String.mk (beforeAt s.toList)

/-- Embedding of `extractFullName` (attendees.ts line 36): reads
`details?.person?.name?.fullName` and returns it when truthy, else undefined
(the source's trailing `|| undefined`). -/
def extractFullName (details : JVal) : JVal :=
  let person := jsGet details "person"
  let nameObj := jsGet person "name"
  let fn := jsGet nameObj "fullName"
  if truthy fn then fn else .vUndefined

/-- Canonical extracted attendee (attendees.ts `ExtractedAttendee`). The
`name`/`email` fields hold the raw JavaScript values the source stores there
(they are only strings when the input is well-typed). -/
structure ExtractedAttendee where
  name : JVal
  email : JVal
  isGroup : Bool
  memberCount : Option Nat
deriving Repr

/-- Embedding of `dedupeKey` (attendees.ts line 32):
`lower(att.email) || lower(att.name)`. -/
def dedupeKey (att : ExtractedAttendee) : Option String := do
  let e ← lower att.email
  if e ≠ "" then pure e else lower att.name

/-- The `details?.group?.members` value of an entry. -/
def membersOf (entry : JVal) : JVal :=
  jsGet (jsGet (jsGet entry "details") "group") "members"

/-- The tail of the individual name-fallback chain of `extractFromEntry`
(attendees.ts line 82): given the already-evaluated
`name || extractFullName(details)` alternative, fall through to the email
local part (`email.split('@')[0]` throws on a truthy non-string email) or
undefined. -/
def resolveFullName (viaDetails email : JVal) : Option JVal :=
  if truthy viaDetails then some viaDetails
  else if truthy email then
    match email with
    | .vStr s => some (.vStr (emailLocalPart s))
    | _ => none
  else some .vUndefined

/-- Embedding of `extractFromEntry` (attendees.ts lines 64-84), producing the
attendee that the source passes to `addAttendee`. The group test
`group?.members && Array.isArray(group.members)` holds exactly when the
members value is an array (arrays, including the empty array, are truthy).
The individual path can throw: `email.split('@')` on a truthy non-string
email is a TypeError. -/
def extractFromEntry (entry : JVal) : Option ExtractedAttendee :=
  let name := jsGet entry "name"
  let email := jsGet entry "email"
  let details := jsGet entry "details"
  match membersOf entry with
  | .vArr xs =>
    some { name := jsOr name (jsOr email (.vStr "(group)")), email := email,
           isGroup := true, memberCount := some xs.length }
  | _ => do
    let viaDetails := if truthy name then name else extractFullName details
    let fullName ← resolveFullName viaDetails email
    pure { name := if truthy fullName then fullName else .vStr "(unknown)",
           email := email, isGroup := false, memberCount := none }

/-- The creator entry list of a people record: `peopleObj.creator` when
truthy (attendees.ts lines 87-90). -/
def creatorEntries (people : JVal) : List JVal :=
  if truthy (jsGet people "creator") then [jsGet people "creator"] else []

/-- The attendee entries of a people record that the source loop visits:
entries of the `attendees` array that are truthy objects
(attendees.ts lines 93-100). -/
def attendeeEntries (people : JVal) : List JVal :=
  match jsGet people "attendees" with
  | .vArr xs => xs.filter (fun e => truthy e && typeofIsObject e)
  | _ => []

/-- All entries `extractAttendees` feeds to `extractFromEntry`, in order. -/
def entryList (people : JVal) : List JVal :=
  creatorEntries people ++ attendeeEntries people

/-- The per-entry loop of `extractAttendees`: `extractFromEntry` followed by
`addAttendee` (attendees.ts lines 55-62), with the `seen` set threaded
explicitly. A `none` anywhere aborts the whole call, as a thrown exception
does. -/
def processEntries : List JVal → List String → Option (List ExtractedAttendee)
  | [], _ => some []
  | e :: rest, seen => do
    let att ← extractFromEntry e
    let key ← dedupeKey att
    if key = "" ∨ key ∈ seen then processEntries rest seen
    else do
      let tl ← processEntries rest (key :: seen)
      pure (att :: tl)

/-- Embedding of `extractAttendees` (attendees.ts lines 46-103). -/
def extractAttendees (people : JVal) : Option (List ExtractedAttendee) :=
  if truthy people && typeofIsObject people then processEntries (entryList people) []
  else some []

/-- The member key `lower(mEmail) || lower(mName)` of `extractGroupMembers`
(attendees.ts line 125). -/
def memberKey (mName mEmail : JVal) : Option String := do
  let e ← lower mEmail
  if e ≠ "" then pure e else lower mName

/-- The member loop of `extractGroupMembers` (attendees.ts lines 113-134):
per-member name resolution `m.name || extractFullName(m.details)`, key
`lower(mEmail) || lower(mName)`, skip of non-objects, empty keys and
already-seen keys, placeholder `'(unknown)'` for a falsy name. -/
def groupMemberLoop : List JVal → List String → Option (List ExtractedAttendee)
  | [], _ => some []
  | m :: rest, seen =>
    if truthy m && typeofIsObject m then do
      let mEmail := jsGet m "email"
      let mName := if truthy (jsGet m "name") then jsGet m "name"
                   else extractFullName (jsGet m "details")
      let key ← memberKey mName mEmail
      if key = "" ∨ key ∈ seen then groupMemberLoop rest seen
      else do
        let tl ← groupMemberLoop rest (key :: seen)
        pure ({ name := if truthy mName then mName else .vStr "(unknown)",
                email := mEmail, isGroup := false, memberCount := none } :: tl)
    else groupMemberLoop rest seen

/-- Embedding of `extractGroupMembers` (attendees.ts lines 105-135). -/
def extractGroupMembers (entry : JVal) : Option (List ExtractedAttendee) :=
  match membersOf entry with
  | .vArr xs => groupMemberLoop xs []
  | _ => some []

/-- The fields of a cached document that the embedded functions read
(types.ts `Document`). `people` and the calendar organizer email are kept as
raw JavaScript values, as the source only accesses them behind casts;
`updated_at` is modelled by the parsed millisecond timestamp of the date
string (absent dates parse as time 0 via `new Date(0)`). -/
structure Document where
  id : String := ""
  title : Option String := none
  type : Option String := none
  was_trashed : Option Bool := none
  updated_at : Option Nat := none
  notes_plain : Option String := none
  people : JVal := .vUndefined
  organizerEmail : JVal := .vUndefined
deriving Repr

/-- Result shape of `extractParticipants` (attendees.ts
`MeetingParticipants`). -/
structure MeetingParticipants where
  organizer : Option ExtractedAttendee
  attendees : List ExtractedAttendee
  expandedGroups : Option (List (ExtractedAttendee × List ExtractedAttendee))
deriving Repr

/-- The `attendees.find((a) => lower(a.email) === lower(organizerEmail))`
search of extractParticipants (attendees.ts line 153); both `lower` calls can
throw. -/
def findOrgLoop (organizerEmail : JVal) :
    List ExtractedAttendee → Option (Option ExtractedAttendee)
  | [] => some none
  | a :: rest => do
    let ea ← lower a.email
    let eo ← lower organizerEmail
    if ea = eo then pure (some a) else findOrgLoop organizerEmail rest

/-- The `attendees.filter((a) => lower(a.email) !== lower(organizer.email))`
removal of extractParticipants (attendees.ts line 162). -/
def filterOrgLoop (organizerEmail : JVal) :
    List ExtractedAttendee → Option (List ExtractedAttendee)
  | [] => some []
  | a :: rest => do
    let ea ← lower a.email
    let eo ← lower organizerEmail
    let tl ← filterOrgLoop organizerEmail rest
    pure (if ea ≠ eo then a :: tl else tl)

/-- The expansion loop over the raw attendees array (attendees.ts lines
172-194): skip non-object entries and entries whose `details.group.members`
is not an array, otherwise record the group descriptor together with its
deduplicated member directory. -/
def egLoop : List JVal → Option (List (ExtractedAttendee × List ExtractedAttendee))
  | [] => some []
  | e :: rest =>
    if truthy e && typeofIsObject e then
      match membersOf e with
      | .vArr xs => do
        let members ← extractGroupMembers e
        let tl ← egLoop rest
        pure (({ name := jsOr (jsGet e "name") (jsOr (jsGet e "email") (.vStr "(group)")),
                 email := jsGet e "email", isGroup := true,
                 memberCount := some xs.length }, members) :: tl)
      | _ => egLoop rest
    else egLoop rest

/-- The whole `expandGroups` pass of extractParticipants (attendees.ts lines
166-196): a function of the raw `people` value alone. When
`peopleObj?.attendees` is not an array the initialised empty list is kept. -/
def expandGroupsPass (people : JVal) :
    Option (List (ExtractedAttendee × List ExtractedAttendee)) :=
  match jsGet people "attendees" with
  | .vArr xs => egLoop xs
  | _ => some []

/-- The organizer resolution of `extractParticipants` (attendees.ts lines
149-159): when the calendar organizer email is truthy, borrow the display
name from a case-insensitively email-matching attendee, else fall back to
the email's local part (`organizerEmail.split('@')[0]` throws on a truthy
non-string value). -/
def computeOrganizer (organizerEmail : JVal) (atts : List ExtractedAttendee) :
    Option (Option ExtractedAttendee) :=
  if truthy organizerEmail then do
    let found ← findOrgLoop organizerEmail atts
    let nameCand := match found with
      | some a => a.name
      | none => JVal.vUndefined
    let orgName ←
      if truthy nameCand then pure nameCand
      else
        match organizerEmail with
        | .vStr s => pure (JVal.vStr (emailLocalPart s))
        | _ => none
    pure (some ({ name := orgName, email := organizerEmail, isGroup := false,
                  memberCount := none } : ExtractedAttendee))
  else pure none

/-- The organizer removal of `extractParticipants` (attendees.ts lines
161-163): `organizer?.email ? attendees.filter(...) : attendees`. -/
def applyOrganizerFilter (organizer : Option ExtractedAttendee)
    (atts : List ExtractedAttendee) : Option (List ExtractedAttendee) :=
  match organizer with
  | some o => if truthy o.email then filterOrgLoop o.email atts else pure atts
  | none => pure atts

/-- The optional expansion step of `extractParticipants` (attendees.ts lines
165-196): absent when not requested, else the raw-array pass. -/
def computeExpanded (expandGroups : Bool) (people : JVal) :
    Option (Option (List (ExtractedAttendee × List ExtractedAttendee))) :=
  if expandGroups then do
    let l ← expandGroupsPass people
    pure (some l)
  else pure none

/-- Embedding of `extractParticipants` (attendees.ts lines 145-199). The
`expandGroups` flag is the truthiness of `options.expandGroups`. -/
def extractParticipants (doc : Document) (expandGroups : Bool) :
    Option MeetingParticipants := do
  let atts ← extractAttendees doc.people
  let organizer ← computeOrganizer doc.organizerEmail atts
  let filtered ← applyOrganizerFilter organizer atts
  let expandedGroups ← computeExpanded expandGroups doc.people
  pure { organizer := organizer, attendees := filtered,
         expandedGroups := expandedGroups }

/-- The parsed cache state as the document-store accessors use it: the keyed
`documents` collection, in the key-insertion order `Object.values` yields. -/
structure CacheState where
  documents : List (String × Document) := []
deriving Repr

/-- Embedding of `getDocuments` (output.ts): `Object.values(cache.documents)`. -/
def getDocuments (state : CacheState) : List Document :=
  state.documents.map Prod.snd

/-- Embedding of `getMeetings` (output.ts):
`getDocuments(state).filter((d) => d.type === 'meeting' && !d.was_trashed)`. -/
def getMeetings (state : CacheState) : List Document :=
  (getDocuments state).filter
    (fun d => decide (d.type = some "meeting") && !(decide (d.was_trashed = some true)))

/-- The comparator key `new Date(d.updated_at || 0).getTime()`, with date
strings modelled by their parsed timestamps. -/
def timeOf (d : Document) : Nat := d.updated_at.getD 0

/-- Stable insertion of a document into a descending-by-time list; the
inserted document (earlier in the original order) goes before equal-time
documents, as a stable `.sort((a, b) => tb - ta)` places it. -/
def insertByTimeDesc (d : Document) : List Document → List Document
  | [] => [d]
  | e :: r => if timeOf e > timeOf d then e :: insertByTimeDesc d r else d :: e :: r

/-- Stable sort models `.sort((a, b) => new Date(b.updated_at || 0).getTime()
- new Date(a.updated_at || 0).getTime())`. -/
def sortByTimeDesc : List Document → List Document
  | [] => []
  | d :: r => insertByTimeDesc d (sortByTimeDesc r)

/-- JavaScript `hay.includes(sub)` substring test. -/
def strIncludes (hay sub : String) : Bool := decide (List.IsInfix sub.toList hay.toList)

/-- Splitting a character list at every character satisfying `p`, producing
the (possibly empty) pieces between matches, as `String.split` and the
regex split of the source do; the empty pieces a `/\s+/` split would merge
are removed by the length filter that follows. -/
def splitChars (p : Char → Bool) : List Char → List Char → List (List Char)
  | [], acc => [acc.reverse]
  | c :: r, acc =>
    if p c then acc.reverse :: splitChars p r [] else splitChars p r (c :: acc)

/-- The significant query words of `findDocument`:
`q.split(/\s+/).filter((w) => w.length > 2)` of the lowercased query. -/
def queryWords (q : String) : List String :=
  ((splitChars (fun c => c.isWhitespace) (strToLower q).toList []).map String.mk).filter
    (fun w => w.length > 2)

/-- The title predicate of `findDocument`: every significant word occurs in
the lowercased title (`(d.title || '').toLowerCase()`). -/
def titleMatches (words : List String) (d : Document) : Bool :=
  words.all (fun w => strIncludes (strToLower (d.title.getD "")) w)

/-- Embedding of `findDocument` (output.ts lines 397-418): exact id match
first, else the most recently updated document among those whose title
contains every significant query word (`sort(desc)[0]` of a stable sort is
the head of `sortByTimeDesc`). -/
def findDocument (idOrQuery : String) (state : CacheState) : Option Document :=
  match (getDocuments state).find? (fun d => decide (d.id = idOrQuery)) with
  | some d => some d
  | none =>
    (sortByTimeDesc ((getDocuments state).filter
      (titleMatches (queryWords idOrQuery)))).head?

/-- Embedding of `getPeopleArray` (output.ts line 457): `[]` for a falsy
people value, the elements of an array, `Object.values` of an object; for a
truthy primitive `Object.values` enumerates its indexed own properties, which
is the character list of a string and empty otherwise. -/
def getPeopleArray (people : JVal) : List JVal :=
  if truthy people then
    match people with
    | .vArr xs => xs
    | .vObj fields => fields.map Prod.snd
    | .vStr s => s.toList.map (fun c => JVal.vStr (String.mk [c]))
    | _ => []
  else []

/-- The `peopleArr.map((p) => (p?.name || '').toLowerCase())` names of a
document's people value, each of which can throw on a truthy non-string
name. -/
def loweredNames : List JVal → Option (List String)
  | [] => some []
  | p :: rest => do
    let n ← lower (jsGet p "name")
    let tl ← loweredNames rest
    pure (n :: tl)

/-- The filter loop of `searchDocuments` (output.ts lines 428-434): the
people-name string is computed before the match test, so a malformed people
entry throws even when the title already matches. -/
def searchFilterLoop (ql : String) : List Document → Option (List Document)
  | [] => some []
  | d :: rest => do
    let names ← loweredNames (getPeopleArray d.people)
    let peopleStr := String.intercalate " " names
    let hit := strIncludes (strToLower (d.title.getD "")) ql
      || strIncludes (strToLower (d.notes_plain.getD "")) ql
      || strIncludes peopleStr ql
    let tl ← searchFilterLoop ql rest
    pure (if hit then d :: tl else tl)

/-- Embedding of `searchDocuments` (output.ts lines 421-436): filter
`getMeetings` by a case-insensitive substring match over title, plain notes
and the joined people names, then sort by descending updated time. -/
def searchDocuments (query : String) (state : CacheState) : Option (List Document) := do
  let matched ← searchFilterLoop (strToLower query) (getMeetings state)
  pure (sortByTimeDesc matched)

/-- The opening-brace character, written by code point to keep string
literals free of brace glyphs. -/
def braceOpen : Char := Char.ofNat 123

/-- The closing-brace character. -/
def braceClose : Char := Char.ofNat 125

/-- Whitespace skipping for the JSON grammar. -/
def skipWs : List Char → List Char
  | [] => []
  | c :: r => if c = ' ' ∨ c = '\t' ∨ c = '\n' ∨ c = '\r' then skipWs r else c :: r

/-- JSON string-literal body after the opening quote: returns the decoded
characters and the rest of the input. Unicode \u escapes are not modelled
(no claim exercises them). -/
def parseStrChars : List Char → Option (List Char × List Char)
  | [] => none
  | '"' :: r => some ([], r)
  | '\\' :: e :: r =>
    let esc : Option Char :=
      if e = '"' then some '"'
      else if e = '\\' then some '\\'
      else if e = '/' then some '/'
      else if e = 'n' then some '\n'
      else if e = 't' then some '\t'
      else if e = 'r' then some '\r'
      else none
    match esc with
    | some ch => (parseStrChars r).map (fun p => (ch :: p.1, p.2))
    | none => none
  | '\\' :: [] => none
  | c :: r => (parseStrChars r).map (fun p => (c :: p.1, p.2))

/-- Digit accumulation for JSON integer numerals. -/
def digitsLoop : List Char → Nat → Nat × List Char
  | [], acc => (acc, [])
  | c :: r, acc =>
    if c.isDigit then digitsLoop r (acc * 10 + (c.toNat - 48)) else (acc, c :: r)

/-- JSON integer numerals (fractional and exponent numerals are not
modelled; no claim feeds them, and an unmodelled numeral merely surfaces as
a parse failure). -/
def parseNumber (cs : List Char) : Option (Int × List Char) :=
  match cs with
  | '-' :: d :: r =>
    if d.isDigit then
      let p := digitsLoop r (d.toNat - 48)
      some (-(Int.ofNat p.1), p.2)
    else none
  | d :: r =>
    if d.isDigit then
      let p := digitsLoop r (d.toNat - 48)
      some (Int.ofNat p.1, p.2)
    else none
  | [] => none

mutual

/-- Fuel-indexed JSON value grammar, modelling `JSON.parse`. -/
def parseVal : Nat → List Char → Option (JVal × List Char)
  | 0, _ => none
  | fuel + 1, cs =>
    match skipWs cs with
    | [] => none
    | c :: r =>
      if c = '"' then (parseStrChars r).map (fun p => (.vStr (String.mk p.1), p.2))
      else if c = braceOpen then parseObjBody fuel r
      else if c = '[' then parseArrBody fuel r
      else
        match c :: r with
        | 'n' :: 'u' :: 'l' :: 'l' :: rest => some (.vNull, rest)
        | 't' :: 'r' :: 'u' :: 'e' :: rest => some (.vBool true, rest)
        | 'f' :: 'a' :: 'l' :: 's' :: 'e' :: rest => some (.vBool false, rest)
        | other => (parseNumber other).map (fun p => (.vNum p.1, p.2))

/-- Array body after the opening bracket. -/
def parseArrBody (fuel : Nat) (cs : List Char) : Option (JVal × List Char) :=
  match fuel with
  | 0 => none
  | f + 1 =>
    match skipWs cs with
    | ']' :: r => some (.vArr [], r)
    | other => do
      let p ← parseVal f other
      parseArrTail f [p.1] p.2

/-- Remaining comma-separated array elements. -/
def parseArrTail (fuel : Nat) (acc : List JVal) (cs : List Char) :
    Option (JVal × List Char) :=
  match fuel with
  | 0 => none
  | f + 1 =>
    match skipWs cs with
    | ']' :: r => some (.vArr acc.reverse, r)
    | ',' :: r => do
      let p ← parseVal f r
      parseArrTail f (p.1 :: acc) p.2
    | _ => none

/-- Object body after the opening brace. -/
def parseObjBody (fuel : Nat) (cs : List Char) : Option (JVal × List Char) :=
  match fuel with
  | 0 => none
  | f + 1 =>
    match skipWs cs with
    | [] => none
    | c :: r =>
      if c = braceClose then some (.vObj [], r)
      else do
        let t ← parsePair f (c :: r)
        parseObjTail f [(t.1, t.2.1)] t.2.2

/-- One `"key": value` member. -/
def parsePair (fuel : Nat) (cs : List Char) : Option (String × JVal × List Char) :=
  match fuel with
  | 0 => none
  | f + 1 =>
    match skipWs cs with
    | '"' :: r => do
      let kp ← parseStrChars r
      match skipWs kp.2 with
      | ':' :: r2 => do
        let vp ← parseVal f r2
        pure (String.mk kp.1, vp.1, vp.2)
      | _ => none
    | _ => none

/-- Remaining comma-separated object members. -/
def parseObjTail (fuel : Nat) (acc : List (String × JVal)) (cs : List Char) :
    Option (JVal × List Char) :=
  match fuel with
  | 0 => none
  | f + 1 =>
    match skipWs cs with
    | [] => none
    | c :: r =>
      if c = braceClose then some (.vObj acc.reverse, r)
      else if c = ',' then do
        let t ← parsePair f r
        parseObjTail f ((t.1, t.2.1) :: acc) t.2.2
      else none

end

/-- Embedding of `JSON.parse` on a string: a `none` result models the thrown
SyntaxError, including trailing-garbage inputs. -/
def jsonParse (s : String) : Option JVal :=
  match parseVal (s.length + 2) s.toList with
  | some (v, rest) => if skipWs rest = [] then some v else none
  | none => none

mutual

/-- JavaScript string coercion `String(v)` of a value, as the non-string
branch of a second `JSON.parse` argument experiences it. -/
def jsToString : JVal → String
  | .vUndefined => "undefined"
  | .vNull => "null"
  | .vBool true => "true"
  | .vBool false => "false"
  | .vNum n => toString n
  | .vStr s => s
  | .vArr xs => jsArrToString xs
  | .vObj _ => "[object Object]"

/-- Array coercion: elements joined by commas, null/undefined as empty. -/
def jsArrToString : List JVal → String
  | [] => ""
  | [x] =>
    match x with
    | .vNull => ""
    | .vUndefined => ""
    | v => jsToString v
  | x :: rest =>
    (match x with
     | .vNull => ""
     | .vUndefined => ""
     | v => jsToString v) ++ "," ++ jsArrToString rest

end

/-- The second `JSON.parse(data.cache)` call (output.ts line 372), whose
argument is an arbitrary value that JavaScript coerces to a string before
parsing. -/
def jsonParseValue (v : JVal) : Option JVal := jsonParse (jsToString v)

/-- Error taxonomy of `loadCache`: the explicit missing-file Error, the
SyntaxError of `JSON.parse`, and the TypeError of a property read on
null/undefined. -/
inductive LoadErr where
  | notFound (msg : String)
  | parseError
  | typeError
deriving Repr, DecidableEq

/-- JavaScript non-optional property read `v.k`, which throws a TypeError on
null/undefined (used for `cache.state`, output.ts line 375). -/
def jsGetStrict (v : JVal) (k : String) : Except LoadErr JVal :=
  match v with
  | .vUndefined => .error .typeError
  | .vNull => .error .typeError
  | _ => .ok (jsGet v k)

/-- Embedding of `CACHE_PATHS` (output.ts lines 328-332). -/
def cachePaths (home platform : String) : Option String :=
  if platform = "darwin" then
    some (home ++ "/Library/Application Support/Granola/cache-v3.json")
  else if platform = "linux" then some (home ++ "/.config/Granola/cache-v3.json")
  else if platform = "win32" then
    some (home ++ "/AppData/Roaming/Granola/cache-v3.json")
  else none

/-- Embedding of `getCachePath` (output.ts lines 344-347):
`CACHE_PATHS[platform] || CACHE_PATHS.darwin`. -/
def getCachePath (home platform : String) : String :=
  (cachePaths home platform).getD
    (home ++ "/Library/Application Support/Granola/cache-v3.json")

/-- The backing file system visible to `loadCache`: the cache file is either
absent or carries a modification timestamp (mtimeMs) and raw text. -/
structure FileSystem where
  cacheFile : Option (Nat × String) := none
deriving Repr

/-- The process-wide mutable module state of output.ts
(`cachedState`/`cacheModTime`, lines 335-336), passed explicitly. The
initial `null` of `cachedState` is the falsy `vNull`. -/
structure CacheGlobals where
  cachedState : JVal := .vNull
  cacheModTime : Nat := 0
deriving Repr

/-- Embedding of `loadCache` (output.ts lines 353-377) as a state
transformer over the module globals: missing file throws the NotFound error
naming the expected path; a matching modification time with a truthy cached
state returns the cache unchanged; otherwise the file text is re-parsed
(`JSON.parse(raw)`, then `JSON.parse(data.cache)`, then `cache.state`) and
the globals are replaced. -/
def loadCache (home platform : String) (fs : FileSystem) (g : CacheGlobals) :
    Except LoadErr (JVal × CacheGlobals) :=
  let cachePath := getCachePath home platform
  match fs.cacheFile with
  | none =>
    .error (.notFound ("Granola cache not found at " ++ cachePath ++
      ". Is Granola installed?"))
  | some (modTime, raw) =>
    if truthy g.cachedState && decide (modTime = g.cacheModTime) then
      .ok (g.cachedState, g)
    else
      match jsonParse raw with
      | none => .error .parseError
      | some data =>
        match jsonParseValue (jsGet data "cache") with
        | none => .error .parseError
        | some cache =>
          match jsGetStrict cache "state" with
          | .error e => .error e
          | .ok st => .ok (st, { cachedState := st, cacheModTime := modTime })

/-! Spec-side decomposition for the dedup claim: the attendee/key pair each
entry contributes, and a keep-first-occurrence dedup written from the spec's
words, to be compared with the source loop. -/

/-- The attendee and dedup key an entry would contribute, before the dedup
decision. -/
def entryCandidate (e : JVal) : Option (ExtractedAttendee × String) := do
  let att ← extractFromEntry e
  let key ← dedupeKey att
  pure (att, key)

/-- The candidate sequence of an entry list. -/
def entryCandidates : List JVal → Option (List (ExtractedAttendee × String))
  | [] => some []
  | e :: rest => do
    let c ← entryCandidate e
    let cs ← entryCandidates rest
    pure (c :: cs)

/-- Spec-side dedup over candidates: drop empty keys, keep the first
occurrence of every key, preserve order. -/
def firstWinsSpec :
    List (ExtractedAttendee × String) → List String → List ExtractedAttendee
  | [], _ => []
  | (a, k) :: rest, seen =>
    if k = "" ∨ k ∈ seen then firstWinsSpec rest seen
    else a :: firstWinsSpec rest (k :: seen)

/-- The candidate sequence of a whole people record (empty for a top-level
non-object value, mirroring the `extractAttendees` guard). -/
def candidatesOf (people : JVal) : Option (List (ExtractedAttendee × String)) :=
  if truthy people && typeofIsObject people then entryCandidates (entryList people)
  else some []

theorem processEntries_eq_firstWins (l : List JVal) :
    ∀ seen, processEntries l seen =
      (entryCandidates l).map (fun cs => firstWinsSpec cs seen) := by
  induction l with
  | nil => intro seen; rfl
  | cons e rest ih =>
    intro seen
    cases h1 : extractFromEntry e with
    | none => simp [processEntries, entryCandidates, entryCandidate, h1]
    | some att =>
      cases h2 : dedupeKey att with
      | none => simp [processEntries, entryCandidates, entryCandidate, h1, h2]
      | some key =>
        by_cases hc : key = "" ∨ key ∈ seen <;>
          cases h3 : entryCandidates rest <;>
            simp [processEntries, entryCandidates, entryCandidate, h1, h2, h3,
              hc, ih, firstWinsSpec]

theorem firstWinsSpec_sublist (cs : List (ExtractedAttendee × String)) :
    ∀ seen, List.Sublist (firstWinsSpec cs seen) (cs.map Prod.fst) := by
  induction cs with
  | nil => intro seen; exact List.Sublist.refl _
  | cons c rest ih =>
    intro seen
    obtain ⟨a, k⟩ := c
    simp only [firstWinsSpec, List.map_cons]
    by_cases hc : k = "" ∨ k ∈ seen
    · rw [if_pos hc]; exact List.Sublist.cons _ (ih seen)
    · rw [if_neg hc]; exact List.Sublist.cons₂ _ (ih (k :: seen))

/-- Two attendee entries whose dedup keys collide even though the later one
carries an email the first lacks: the first names itself by the email string,
the second has that email properly. -/
def exC3 : JVal := .vObj [("attendees", .vArr [
  .vObj [("name", .vStr "bob@x.com")],
  .vObj [("name", .vStr "Bob"), ("email", .vStr "bob@x.com")]])]

/-- C3: the dedup key of an attendee is lowercase(email) when that is
non-empty, else lowercase(name); extractAttendees equals keep-first-
occurrence dedup over the per-entry candidates (empty keys dropped, first
occurrence wins); the kept attendees are a subsequence of the candidates
(insertion order preserved); and on a record whose second entry collides
with the first while carrying an email the first lacks, only the first-seen
attendee survives. -/
theorem c3_dedupe_confirmed :
    (∀ (att : ExtractedAttendee) (e n : String), lower att.email = some e →
      lower att.name = some n → dedupeKey att = some (if e ≠ "" then e else n)) ∧
    (∀ people, extractAttendees people =
      (candidatesOf people).map (fun cs => firstWinsSpec cs [])) ∧
    (∀ cs seen, List.Sublist (firstWinsSpec cs seen) (cs.map Prod.fst)) ∧
    extractAttendees exC3 =
      some [{ name := .vStr "bob@x.com", email := .vUndefined, isGroup := false,
              memberCount := none }] := by
  refine ⟨?_, ?_, ?_, by rfl⟩
  · intro att e n he hn
    by_cases hke : e = "" <;> simp [dedupeKey, he, hn, hke]
  · intro people
    unfold extractAttendees candidatesOf
    by_cases h : (truthy people && typeofIsObject people) = true
    · rw [if_pos h, if_pos h]; exact processEntries_eq_firstWins _ []
    · rw [if_neg h, if_neg h]; rfl
  · exact fun cs seen => firstWinsSpec_sublist cs seen

/-- C3 witness: the key rule evaluated on a concrete attendee whose email
and name both lower successfully. -/
theorem c3_dedupe_witness :
    dedupeKey { name := .vStr "Bob", email := .vStr "B@X.com",
                isGroup := false, memberCount := none } =
      some (if "b@x.com" ≠ "" then "b@x.com" else "bob") :=
  c3_dedupe_confirmed.1
    { name := .vStr "Bob", email := .vStr "B@X.com", isGroup := false,
      memberCount := none }
    "b@x.com" "bob" (by rfl) (by rfl)

/-! Development for the skipped-entries claim. -/

/-- Whether a value is the absent-property value. -/
def isUndef : JVal → Bool
  | .vUndefined => true
  | _ => false

theorem isUndef_iff (v : JVal) : isUndef v = true ↔ v = .vUndefined := by
  cases v <;> simp [isUndef]

/-- An entry with no `name`, no `email` and no `details` property at all. -/
def lacksIdentity (e : JVal) : Bool :=
  isUndef (jsGet e "name") && isUndef (jsGet e "email") && isUndef (jsGet e "details")

/-- The placeholder attendee the source emits for an entry with nothing to
derive a name from. -/
def unknownAttendee : ExtractedAttendee :=
  { name := .vStr "(unknown)", email := .vUndefined, isGroup := false, memberCount := none }

theorem extractFromEntry_lacksIdentity (e : JVal) (h : lacksIdentity e = true) :
    extractFromEntry e = some unknownAttendee := by
  have h' := h
  unfold lacksIdentity at h'
  rw [Bool.and_eq_true, Bool.and_eq_true] at h'
  obtain ⟨⟨h1, h2⟩, h3⟩ := h'
  rw [isUndef_iff] at h1 h2 h3
  unfold extractFromEntry membersOf
  rw [h1, h2, h3]
  rfl

theorem dedupeKey_unknown : dedupeKey unknownAttendee = some "(unknown)" := by rfl

theorem processEntries_lacksIdentity (l : List JVal) :
    ∀ seen, (∀ e ∈ l, lacksIdentity e = true) →
      processEntries l seen =
        some (if l.isEmpty = true ∨ "(unknown)" ∈ seen then [] else [unknownAttendee]) := by
  induction l with
  | nil => intro seen _; simp [processEntries]
  | cons e rest ih =>
    intro seen hall
    have he : lacksIdentity e = true := hall e (List.mem_cons_self e rest)
    have hrest : ∀ x ∈ rest, lacksIdentity x = true :=
      fun x hx => hall x (List.mem_cons_of_mem e hx)
    have hstep := extractFromEntry_lacksIdentity e he
    by_cases hseen : ("(unknown)" : String) ∈ seen
    · have : ("(unknown)" = "" ∨ ("(unknown)" : String) ∈ seen) := Or.inr hseen
      simp only [processEntries, hstep, dedupeKey_unknown, Option.bind_eq_bind,
        Option.some_bind, if_pos this, ih seen hrest]
      simp [hseen]
    · have hcond : ¬(("(unknown)" : String) = "" ∨ ("(unknown)" : String) ∈ seen) := by
        simp [hseen]
      have htail := ih ("(unknown)" :: seen) hrest
      simp only [processEntries, hstep, dedupeKey_unknown, Option.bind_eq_bind,
        Option.some_bind, if_neg hcond, htail]
      simp [hseen]

/-- A people record whose single entry carries no name, email or details. -/
def exC1 : JVal := .vObj [("attendees", .vArr [.vObj []])]

/-- C1 counterexample: a people record in which every processed entry lacks
both name and email (and any details), yet `extractAttendees` is not empty:
the entry is kept as the `'(unknown)'` placeholder rather than skipped. -/
theorem c1_skip_empty_entries_cex :
    (entryList exC1).all lacksIdentity = true ∧ extractAttendees exC1 ≠ some [] := by
  refine ⟨by rfl, fun h => ?_⟩
  rw [show extractAttendees exC1 = some [unknownAttendee] from by rfl] at h
  exact List.cons_ne_nil _ _ (Option.some.inj h)

/-- C1 amended: entries lacking name, email and details are not skipped; each
contributes the `'(unknown)'` placeholder, and since all such placeholders
share the dedup key, a record made only of such entries extracts to either
the empty sequence or the single placeholder attendee. -/
theorem c1_skip_empty_entries_amended (people : JVal)
    (h : (entryList people).all lacksIdentity = true) :
    extractAttendees people = some [] ∨
    extractAttendees people = some [unknownAttendee] := by
  have hall : ∀ e ∈ entryList people, lacksIdentity e = true := by
    intro e he; exact List.all_eq_true.mp h e he
  unfold extractAttendees
  by_cases hg : (truthy people && typeofIsObject people) = true
  · rw [if_pos hg, processEntries_lacksIdentity (entryList people) [] hall]
    by_cases hnil : (entryList people).isEmpty = true
    · left; simp [hnil]
    · right; simp [hnil]
  · rw [if_neg hg]; left; rfl

/-- C1 witness: the amended statement evaluated on the concrete record. -/
theorem c1_skip_empty_entries_witness :
    extractAttendees exC1 = some [] ∨ extractAttendees exC1 = some [unknownAttendee] :=
  c1_skip_empty_entries_amended exC1 (by rfl)

/-! Development for the group-shape claim. -/

/-- An entry whose `details.group.members` exists but is the empty array. -/
def exC2 : JVal := .vObj [("name", .vStr "X"),
  ("details", .vObj [("group", .vObj [("members", .vArr [])])])]

/-- The attendee the source produces for `exC2`. -/
def exC2att : ExtractedAttendee :=
  { name := .vStr "X", email := .vUndefined, isGroup := true, memberCount := some 0 }

/-- C2 counterexample: `details.group.members` exists but is the empty (hence
not non-empty) array, yet the entry is classified as a group with
memberCount 0, not as an individual. -/
theorem c2_group_shape_cex :
    membersOf exC2 = .vArr [] ∧ extractFromEntry exC2 = some exC2att :=
  ⟨by rfl, by rfl⟩

/-- C2 amended: an entry is classified as a group (with memberCount the
members length) iff `details.group.members` is an array — including the
empty array; absence or a non-array value yields an individual without a
member count. -/
theorem extractFromEntry_arr (entry : JVal) (xs : List JVal)
    (hm : membersOf entry = .vArr xs) :
    extractFromEntry entry =
      some { name := jsOr (jsGet entry "name")
               (jsOr (jsGet entry "email") (.vStr "(group)")),
             email := jsGet entry "email", isGroup := true,
             memberCount := some xs.length } := by
  unfold extractFromEntry
  rw [hm]

theorem extractFromEntry_ind (entry : JVal)
    (hm : ∀ xs, membersOf entry ≠ .vArr xs) :
    extractFromEntry entry =
      (resolveFullName
          (if truthy (jsGet entry "name") then jsGet entry "name"
           else extractFullName (jsGet entry "details"))
          (jsGet entry "email")).bind
        (fun fullName =>
          some { name := if truthy fullName then fullName else .vStr "(unknown)",
                 email := jsGet entry "email", isGroup := false,
                 memberCount := none }) := by
  unfold extractFromEntry
  cases hm2 : membersOf entry
  case vArr xs => exact absurd hm2 (hm xs)
  all_goals rfl

theorem c2_group_shape_amended (entry : JVal) (a : ExtractedAttendee)
    (h : extractFromEntry entry = some a) :
    (a.isGroup = true ↔ ∃ xs, membersOf entry = .vArr xs) ∧
    (∀ xs, membersOf entry = .vArr xs → a.memberCount = some xs.length) ∧
    (a.isGroup = false → a.memberCount = none) := by
  cases hm : membersOf entry
  case vArr xs =>
    rw [extractFromEntry_arr entry xs hm] at h
    have ha : a = { name := jsOr (jsGet entry "name")
                      (jsOr (jsGet entry "email") (.vStr "(group)")),
                    email := jsGet entry "email", isGroup := true,
                    memberCount := some xs.length } := (Option.some.inj h).symm
    subst ha
    refine ⟨⟨fun _ => ⟨xs, rfl⟩, fun _ => rfl⟩, ?_, by simp⟩
    intro ys hys
    injection hys with hxy
    subst hxy
    rfl
  all_goals
    have hni : ∀ xs, membersOf entry ≠ .vArr xs := by
      intro xs hxs
      rw [hm] at hxs
      simp at hxs
    rw [extractFromEntry_ind entry hni] at h
    simp only [Option.bind_eq_some] at h
    obtain ⟨fn, _, ha⟩ := h
    have ha' : a = { name := if truthy fn then fn else .vStr "(unknown)",
                     email := jsGet entry "email", isGroup := false,
                     memberCount := none } := (Option.some.inj ha).symm
    subst ha'
    simp

/-- C2 witness: the amended statement evaluated on the concrete empty-array
group entry. -/
theorem c2_group_shape_witness :
    (exC2att.isGroup = true ↔ ∃ xs, membersOf exC2 = .vArr xs) ∧
    (∀ xs, membersOf exC2 = .vArr xs → exC2att.memberCount = some xs.length) ∧
    (exC2att.isGroup = false → exC2att.memberCount = none) :=
  c2_group_shape_amended exC2 exC2att (by rfl)

/-! Development for the totality claim. -/

/-- Whether a value is a string or the absent-property value: the values a
string-typed field position can hold without making `toLowerCase`/`split`
throw. -/
def strOrAbsent : JVal → Bool
  | .vStr _ => true
  | .vUndefined => true
  | _ => false

/-- The nested `details.person.name.fullName` value of an entry. -/
def fullNameField (e : JVal) : JVal :=
  jsGet (jsGet (jsGet (jsGet e "details") "person") "name") "fullName"

/-- An entry whose string-positioned fields (name, email, nested fullName)
are strings or absent. -/
def entrySafe (e : JVal) : Bool :=
  strOrAbsent (jsGet e "name") && strOrAbsent (jsGet e "email") &&
    strOrAbsent (fullNameField e)

theorem lower_isSome_of_strOrAbsent (v : JVal) (h : strOrAbsent v = true) :
    (lower v).isSome = true := by
  cases v
  case vStr s =>
    unfold lower
    split <;> rfl
  case vUndefined => rfl
  all_goals simp [strOrAbsent] at h

theorem dedupeKey_isSome (a : ExtractedAttendee)
    (he : strOrAbsent a.email = true) (hn : strOrAbsent a.name = true) :
    (dedupeKey a).isSome = true := by
  obtain ⟨t, ht⟩ := Option.isSome_iff_exists.mp (lower_isSome_of_strOrAbsent _ he)
  obtain ⟨u, hu⟩ := Option.isSome_iff_exists.mp (lower_isSome_of_strOrAbsent _ hn)
  simp only [dedupeKey, ht, hu, Option.bind_eq_bind, Option.some_bind]
  split <;> simp

theorem jsOr_strOrAbsent (x y : JVal) (hx : strOrAbsent x = true)
    (hy : strOrAbsent y = true) : strOrAbsent (jsOr x y) = true := by
  unfold jsOr
  split <;> assumption

theorem resolveFullName_safe (vd email : JVal) (hvd : strOrAbsent vd = true)
    (he : strOrAbsent email = true) :
    ∃ fn, resolveFullName vd email = some fn ∧ strOrAbsent fn = true := by
  unfold resolveFullName
  by_cases h1 : truthy vd = true
  · exact ⟨vd, by rw [if_pos h1], hvd⟩
  · rw [if_neg h1]
    by_cases h2 : truthy email = true
    · rw [if_pos h2]
      cases email <;> simp [strOrAbsent] at he <;> simp [truthy] at h2
      exact ⟨_, rfl, rfl⟩
    · rw [if_neg h2]
      exact ⟨.vUndefined, rfl, rfl⟩

theorem extractFromEntry_safe (e : JVal) (h : entrySafe e = true) :
    ∃ a, extractFromEntry e = some a ∧ strOrAbsent a.email = true ∧
      strOrAbsent a.name = true := by
  have h' := h
  unfold entrySafe at h'
  rw [Bool.and_eq_true, Bool.and_eq_true] at h'
  obtain ⟨⟨h1, h2⟩, h3⟩ := h'
  cases hm : membersOf e
  case vArr xs =>
    refine ⟨_, extractFromEntry_arr e xs hm, h2, ?_⟩
    exact jsOr_strOrAbsent _ _ h1 (jsOr_strOrAbsent _ _ h2 rfl)
  all_goals
    have hni : ∀ xs, membersOf e ≠ .vArr xs := by
      intro xs hxs
      rw [hm] at hxs
      simp at hxs
    have hvd : strOrAbsent (if truthy (jsGet e "name") then jsGet e "name"
        else extractFullName (jsGet e "details")) = true := by
      split
      · exact h1
      · have hfe : extractFullName (jsGet e "details") =
            if truthy (fullNameField e) then fullNameField e else .vUndefined := rfl
        rw [hfe]
        split
        · exact h3
        · rfl
    obtain ⟨fn, hfn, hfnsafe⟩ := resolveFullName_safe _ _ hvd h2
    refine ⟨{ name := if truthy fn then fn else .vStr "(unknown)",
              email := jsGet e "email", isGroup := false, memberCount := none },
            ?_, h2, ?_⟩
    · rw [extractFromEntry_ind e hni, hfn]
      rfl
    · show strOrAbsent (if truthy fn then fn else .vStr "(unknown)") = true
      split
      · exact hfnsafe
      · rfl

theorem processEntries_safe (l : List JVal) :
    ∀ seen, (∀ e ∈ l, entrySafe e = true) →
      (processEntries l seen).isSome = true := by
  induction l with
  | nil => intro seen _; rfl
  | cons e rest ih =>
    intro seen hall
    obtain ⟨a, ha, hae, han⟩ :=
      extractFromEntry_safe e (hall e (List.mem_cons_self e rest))
    obtain ⟨k, hk⟩ := Option.isSome_iff_exists.mp (dedupeKey_isSome a hae han)
    have hrest : ∀ x ∈ rest, entrySafe x = true :=
      fun x hx => hall x (List.mem_cons_of_mem e hx)
    simp only [processEntries, ha, hk, Option.bind_eq_bind, Option.some_bind]
    split
    · exact ih seen hrest
    · obtain ⟨t, htl⟩ :=
        Option.isSome_iff_exists.mp (ih (k :: seen) hrest)
      simp [htl]

/-- A people record carrying a truthy non-string name: JavaScript throws a
TypeError in `lower` when deduplicating it. -/
def exC4 : JVal := .vObj [("attendees", .vArr [.vObj [("name", .vNum 42)]])]

/-- C4 counterexample: `extractAttendees` raises (models as `none`) on a
JSON-like input whose name field is the number 42, so it is not total over
arbitrary JSON-like input. -/
theorem c4_totality_cex : extractAttendees exC4 = none := by rfl

/-- C4 amended: `extractAttendees` never raises on records all of whose
entries carry only strings-or-absent in the string positions (name, email,
nested fullName); a top-level absent or non-object people value yields the
empty sequence. Truthy non-string values in those positions can raise a
TypeError, so unrestricted totality fails. -/
theorem c4_totality_amended (people : JVal)
    (h : (entryList people).all entrySafe = true) :
    (extractAttendees people).isSome = true ∧
    ((truthy people && typeofIsObject people) = false →
      extractAttendees people = some []) := by
  constructor
  · unfold extractAttendees
    by_cases hg : (truthy people && typeofIsObject people) = true
    · rw [if_pos hg]
      exact processEntries_safe (entryList people) []
        (fun e he => List.all_eq_true.mp h e he)
    · rw [if_neg hg]
      rfl
  · intro hg
    unfold extractAttendees
    simp [hg]

/-- A well-typed people record for evaluating the amended totality claim. -/
def exC4w : JVal := .vObj [("creator", .vObj [("name", .vStr "Ann")]),
  ("attendees", .vArr [.vObj [("email", .vStr "b@x.com")]])]

/-- C4 witness: the amended statement evaluated on a concrete well-typed
record. -/
theorem c4_totality_witness :
    (extractAttendees exC4w).isSome = true ∧
    ((truthy exC4w && typeofIsObject exC4w) = false →
      extractAttendees exC4w = some []) :=
  c4_totality_amended exC4w (by rfl)

/-! Development for the organizer-removal claim. -/

/-- The string an already-lowered value denotes (empty when the lowering
result is unused). -/
def lowerD (v : JVal) : String := (lower v).getD ""

theorem lower_vStr (s : String) : lower (.vStr s) = some (strToLower s) := by
  unfold lower
  split
  · rfl
  · rename_i hf
    have hs : s = "" := by
      by_contra hne
      exact hf (by simp [truthy, hne])
    subst hs
    rfl

theorem lower_email_isSome_of_dedupeKey (a : ExtractedAttendee) (k : String)
    (h : dedupeKey a = some k) : (lower a.email).isSome = true := by
  unfold dedupeKey at h
  cases he : lower a.email
  · rw [he] at h
    simp at h
  · rfl

theorem processEntries_emails (l : List JVal) :
    ∀ seen atts, processEntries l seen = some atts →
      ∀ a ∈ atts, (lower a.email).isSome = true := by
  induction l with
  | nil =>
    intro seen atts h a ha
    have : atts = ([] : List ExtractedAttendee) := (Option.some.inj h).symm
    subst this
    cases ha
  | cons e rest ih =>
    intro seen atts h a ha
    cases h1 : extractFromEntry e with
    | none => rw [processEntries, h1] at h; simp at h
    | some att =>
      rw [processEntries, h1] at h
      simp only [Option.bind_eq_bind, Option.some_bind] at h
      cases h2 : dedupeKey att with
      | none => rw [h2] at h; simp at h
      | some key =>
        rw [h2] at h
        simp only [Option.some_bind] at h
        split at h
        · exact ih seen atts h a ha
        · cases h3 : processEntries rest (key :: seen) with
          | none => rw [h3] at h; simp at h
          | some tl =>
            rw [h3] at h
            have : att :: tl = atts := Option.some.inj h
            subst this
            rcases List.mem_cons.mp ha with rfl | hmem
            · exact lower_email_isSome_of_dedupeKey a key h2
            · exact ih (key :: seen) tl h3 a hmem

theorem extractAttendees_emails (p : JVal) (atts : List ExtractedAttendee)
    (h : extractAttendees p = some atts) :
    ∀ a ∈ atts, (lower a.email).isSome = true := by
  unfold extractAttendees at h
  split at h
  · exact processEntries_emails _ _ _ h
  · have : atts = ([] : List ExtractedAttendee) := (Option.some.inj h).symm
    subst this
    intro a ha
    cases ha

theorem filterOrgLoop_eq (oe : JVal) (k : String) (hoe : lower oe = some k)
    (atts : List ExtractedAttendee)
    (hsafe : ∀ a ∈ atts, (lower a.email).isSome = true) :
    filterOrgLoop oe atts =
      some (atts.filter (fun a => decide (lowerD a.email ≠ k))) := by
  induction atts with
  | nil => rfl
  | cons a rest ih =>
    obtain ⟨t, ht⟩ :=
      Option.isSome_iff_exists.mp (hsafe a (List.mem_cons_self a rest))
    have hrest := ih (fun x hx => hsafe x (List.mem_cons_of_mem a hx))
    simp only [filterOrgLoop, ht, hoe, hrest, Option.bind_eq_bind,
      Option.some_bind]
    by_cases htk : t = k <;>
      simp [List.filter_cons, lowerD, ht, htk]

theorem extractParticipants_parts (doc : Document) (eg : Bool)
    (res : MeetingParticipants) (h : extractParticipants doc eg = some res) :
    ∃ atts organizer filtered egv,
      extractAttendees doc.people = some atts ∧
      computeOrganizer doc.organizerEmail atts = some organizer ∧
      applyOrganizerFilter organizer atts = some filtered ∧
      computeExpanded eg doc.people = some egv ∧
      res = { organizer := organizer, attendees := filtered,
              expandedGroups := egv } := by
  unfold extractParticipants at h
  simp only [Option.bind_eq_bind, Option.bind_eq_some] at h
  obtain ⟨atts, h1, organizer, h2, filtered, h3, egv, h4, h5⟩ := h
  exact ⟨atts, organizer, filtered, egv, h1, h2, h3, h4,
    (Option.some.inj h5).symm⟩

theorem computeOrganizer_falsy (oe : JVal) (atts : List ExtractedAttendee)
    (h : truthy oe = false) : computeOrganizer oe atts = some none := by
  unfold computeOrganizer
  rw [if_neg (by simp [h])]
  rfl

theorem computeOrganizer_truthy (oe : JVal) (atts : List ExtractedAttendee)
    (org : Option ExtractedAttendee) (ht : truthy oe = true)
    (h : computeOrganizer oe atts = some org) :
    ∃ n, org = some { name := n, email := oe, isGroup := false,
                      memberCount := none } := by
  unfold computeOrganizer at h
  rw [if_pos ht] at h
  simp only [Option.bind_eq_bind, Option.bind_eq_some] at h
  obtain ⟨found, _, h⟩ := h
  split at h
  · simp only [Option.pure_def, Option.bind_eq_bind, Option.some_bind] at h
    exact ⟨_, (Option.some.inj h).symm⟩
  · split at h
    · simp only [Option.pure_def, Option.bind_eq_bind, Option.some_bind] at h
      exact ⟨_, (Option.some.inj h).symm⟩
    · simp at h

/-- The attendee list of the organizer-removal scenario: A and B with their
emails, calendar organizer `A@X.com`. -/
def docC5 : Document :=
  { people := .vObj [("attendees", .vArr [
      .vObj [("name", .vStr "A"), ("email", .vStr "a@x.com")],
      .vObj [("name", .vStr "B"), ("email", .vStr "b@x.com")]])],
    organizerEmail := .vStr "A@X.com" }

/-- C5: on the A/B scenario the organizer keeps the calendar casing
`A@X.com` while borrowing the name `A` from the matching attendee, and only
B remains in the attendee list; in general a falsy organizer email means no
organizer and no removal, and with an organizer email the removal is exactly
a filter on lowercase email equality. -/
theorem c5_organizer_confirmed :
    (extractParticipants docC5 false = some
      { organizer := some { name := .vStr "A", email := .vStr "A@X.com",
                            isGroup := false, memberCount := none },
        attendees := [{ name := .vStr "B", email := .vStr "b@x.com",
                        isGroup := false, memberCount := none }],
        expandedGroups := none }) ∧
    (∀ doc eg res, extractParticipants doc eg = some res →
      truthy doc.organizerEmail = false →
      res.organizer = none ∧
        ∀ atts, extractAttendees doc.people = some atts →
          res.attendees = atts) ∧
    (∀ doc eg res atts s, extractParticipants doc eg = some res →
      doc.organizerEmail = .vStr s → truthy (JVal.vStr s) = true →
      extractAttendees doc.people = some atts →
      res.attendees =
        atts.filter (fun a => decide (lowerD a.email ≠ strToLower s))) := by
  refine ⟨by rfl, ?_, ?_⟩
  · intro doc eg res h hoe
    obtain ⟨atts0, organizer, filtered, egv, h1, h2, h3, h4, h5⟩ :=
      extractParticipants_parts doc eg res h
    rw [computeOrganizer_falsy doc.organizerEmail atts0 hoe] at h2
    have horg : organizer = none := (Option.some.inj h2).symm
    subst horg
    have hfil : filtered = atts0 := (Option.some.inj h3).symm
    subst hfil
    subst h5
    refine ⟨rfl, ?_⟩
    intro atts hatts
    rw [h1] at hatts
    exact Option.some.inj hatts
  · intro doc eg res atts s h hoes htruthy h1
    obtain ⟨atts0, organizer, filtered, egv, h1', h2, h3, h4, h5⟩ :=
      extractParticipants_parts doc eg res h
    have hatts : atts0 = atts := by
      rw [h1'] at h1
      exact Option.some.inj h1
    subst hatts
    rw [hoes] at h2
    obtain ⟨n, horg⟩ :=
      computeOrganizer_truthy (.vStr s) atts0 organizer htruthy h2
    subst horg
    have h3' : applyOrganizerFilter
        (some { name := n, email := .vStr s, isGroup := false,
                memberCount := none }) atts0 =
        if truthy (JVal.vStr s) then filterOrgLoop (.vStr s) atts0
        else pure atts0 := rfl
    rw [h3', if_pos htruthy] at h3
    have hsafe := extractAttendees_emails doc.people atts0 h1'
    rw [filterOrgLoop_eq (.vStr s) (strToLower s) (lower_vStr s) atts0 hsafe]
      at h3
    have hfil : filtered =
        atts0.filter (fun a => decide (lowerD a.email ≠ strToLower s)) :=
      (Option.some.inj h3).symm
    subst h5
    exact hfil

/-- C5 witness: the general no-organizer-email part evaluated on a concrete
document. -/
theorem c5_organizer_witness :
    ({ organizer := none,
       attendees := [{ name := .vStr "Sam", email := .vUndefined,
                       isGroup := false, memberCount := none }],
       expandedGroups := none } : MeetingParticipants).organizer = none ∧
    ∀ atts, extractAttendees (JVal.vObj [("attendees", .vArr
        [.vObj [("name", .vStr "Sam")]])]) = some atts →
      ({ organizer := none,
         attendees := [{ name := .vStr "Sam", email := .vUndefined,
                         isGroup := false, memberCount := none }],
         expandedGroups := none } : MeetingParticipants).attendees = atts :=
  c5_organizer_confirmed.2.1
    { people := .vObj [("attendees", .vArr [.vObj [("name", .vStr "Sam")]])] }
    false
    { organizer := none,
      attendees := [{ name := .vStr "Sam", email := .vUndefined,
                      isGroup := false, memberCount := none }],
      expandedGroups := none }
    (by rfl) (by rfl)

/-! Development for the group-expansion claim. -/

theorem groupMemberLoop_length_le (l : List JVal) :
    ∀ seen ms, groupMemberLoop l seen = some ms → ms.length ≤ l.length := by
  induction l with
  | nil =>
    intro seen ms h
    have : ms = ([] : List ExtractedAttendee) := (Option.some.inj h).symm
    subst this
    simp
  | cons m rest ih =>
    intro seen ms h
    rw [groupMemberLoop] at h
    split at h
    · simp only [Option.bind_eq_bind, Option.bind_eq_some] at h
      obtain ⟨key, _, h⟩ := h
      split at h
      · exact Nat.le_succ_of_le (ih seen ms h)
      · simp only [Option.pure_def, Option.bind_eq_some] at h
        obtain ⟨tl, htl, h⟩ := h
        have : _ :: tl = ms := Option.some.inj h
        subst this
        exact Nat.succ_le_succ (ih _ tl htl)
    · exact Nat.le_succ_of_le (ih seen ms h)

/-- The group entry of the expansion scenario: name Eng, email eng@co.com,
two members of which one has only a name and the other only an email. -/
def entryC6 : JVal := .vObj [("name", .vStr "Eng"), ("email", .vStr "eng@co.com"),
  ("details", .vObj [("group", .vObj [("members", .vArr [
    .vObj [("name", .vStr "Sam")],
    .vObj [("email", .vStr "sam@co.com")]])])])]

/-- The document carrying only that group entry. -/
def docC6 : Document := { people := .vObj [("attendees", .vArr [entryC6])] }

/-- The flat attendee the group entry yields. -/
def engAtt : ExtractedAttendee :=
  { name := .vStr "Eng", email := .vStr "eng@co.com", isGroup := true,
    memberCount := some 2 }

/-- C6: on the Eng scenario with expandGroups, the flat list holds the group
attendee with memberCount 2 and the expanded directory retains both raw
members (their keys, `sam` and `sam@co.com`, do not collide); in general a
group entry records memberCount equal to the raw members length, while the
expanded member list dedups to at most that many entries. -/
theorem c6_group_expansion_confirmed :
    (extractParticipants docC6 true = some
      { organizer := none, attendees := [engAtt],
        expandedGroups := some [(engAtt,
          [{ name := .vStr "Sam", email := .vUndefined, isGroup := false,
             memberCount := none },
           { name := .vStr "(unknown)", email := .vStr "sam@co.com",
             isGroup := false, memberCount := none }])] }) ∧
    (∀ entry xs, membersOf entry = .vArr xs →
      extractFromEntry entry = some
        { name := jsOr (jsGet entry "name")
            (jsOr (jsGet entry "email") (.vStr "(group)")),
          email := jsGet entry "email", isGroup := true,
          memberCount := some xs.length }) ∧
    (∀ entry xs ms, membersOf entry = .vArr xs →
      extractGroupMembers entry = some ms → ms.length ≤ xs.length) := by
  refine ⟨by rfl, ?_, ?_⟩
  · exact fun entry xs hm => extractFromEntry_arr entry xs hm
  · intro entry xs ms hm h
    unfold extractGroupMembers at h
    rw [hm] at h
    exact groupMemberLoop_length_le xs [] ms h

/-- C6 witness: the two general parts evaluated on the concrete group
entry. -/
theorem c6_group_expansion_witness :
    extractFromEntry entryC6 = some engAtt ∧
    ([({ name := .vStr "Sam", email := .vUndefined, isGroup := false,
         memberCount := none } : ExtractedAttendee),
      { name := .vStr "(unknown)", email := .vStr "sam@co.com",
        isGroup := false, memberCount := none }].length ≤ 2) :=
  ⟨c6_group_expansion_confirmed.2.1 entryC6
     [.vObj [("name", .vStr "Sam")], .vObj [("email", .vStr "sam@co.com")]]
     (by rfl),
   c6_group_expansion_confirmed.2.2 entryC6
     [.vObj [("name", .vStr "Sam")], .vObj [("email", .vStr "sam@co.com")]]
     [{ name := .vStr "Sam", email := .vUndefined, isGroup := false,
        memberCount := none },
      { name := .vStr "(unknown)", email := .vStr "sam@co.com",
        isGroup := false, memberCount := none }]
     (by rfl) (by rfl)⟩

/-! Development for the expansion-independence claim. -/

theorem computeExpanded_true (p : JVal)
    (egv : Option (List (ExtractedAttendee × List ExtractedAttendee)))
    (h : computeExpanded true p = some egv) :
    ∃ l, expandGroupsPass p = some l ∧ egv = some l := by
  unfold computeExpanded at h
  rw [if_pos rfl] at h
  simp only [Option.pure_def, Option.bind_eq_bind, Option.bind_eq_some] at h
  obtain ⟨l, hl, h⟩ := h
  exact ⟨l, hl, (Option.some.inj h).symm⟩

/-- A group entry that shares its dedup key with the plain entry before it. -/
def entryC9grp : JVal := .vObj [("name", .vStr "Eng"), ("email", .vStr "eng@co.com"),
  ("details", .vObj [("group", .vObj [("members", .vArr [
    .vObj [("name", .vStr "Sam")]])])])]

/-- A document whose group entry is deduplicated out of the flat attendee
list by the identical-keyed individual entry before it. -/
def docC9 : Document := { people := .vObj [("attendees", .vArr [
  .vObj [("name", .vStr "Eng"), ("email", .vStr "eng@co.com")], entryC9grp])] }

/-- A document whose group entry is removed from the attendee list by
organizer-email matching. -/
def docC9b : Document :=
  { people := .vObj [("attendees", .vArr [entryC9grp])],
    organizerEmail := .vStr "eng@co.com" }

/-- The expanded pair the group entry always contributes. -/
def engPairC9 : ExtractedAttendee × List ExtractedAttendee :=
  ({ name := .vStr "Eng", email := .vStr "eng@co.com", isGroup := true,
     memberCount := some 1 },
   [{ name := .vStr "Sam", email := .vUndefined, isGroup := false,
      memberCount := none }])

/-- C9: with expandGroups requested, the expandedGroups of a successful
extraction always equal `expandGroupsPass` of the raw people value alone —
independent of the flat pipeline; concretely, a group entry deduplicated out
of the flat list by an earlier identical-keyed entry, or removed from it by
organizer matching, still contributes its expandedGroups pair. -/
theorem c9_expansion_independent_confirmed :
    (∀ doc res, extractParticipants doc true = some res →
      ∃ eg, res.expandedGroups = some eg ∧
        expandGroupsPass doc.people = some eg) ∧
    (extractParticipants docC9 true = some
      { organizer := none,
        attendees := [{ name := .vStr "Eng", email := .vStr "eng@co.com",
                        isGroup := false, memberCount := none }],
        expandedGroups := some [engPairC9] }) ∧
    (extractParticipants docC9b true = some
      { organizer := some { name := .vStr "Eng", email := .vStr "eng@co.com",
                            isGroup := false, memberCount := none },
        attendees := [],
        expandedGroups := some [engPairC9] }) := by
  refine ⟨?_, by rfl, by rfl⟩
  intro doc res h
  obtain ⟨atts, organizer, filtered, egv, _, _, _, h4, h5⟩ :=
    extractParticipants_parts doc true res h
  obtain ⟨l, hl, hegv⟩ := computeExpanded_true doc.people egv h4
  subst hegv
  subst h5
  exact ⟨l, rfl, hl⟩

/-- C9 witness: the general part evaluated on the dedup scenario. -/
theorem c9_expansion_independent_witness :
    ∃ eg, ({ organizer := none,
             attendees := [{ name := .vStr "Eng", email := .vStr "eng@co.com",
                             isGroup := false, memberCount := none }],
             expandedGroups := some [engPairC9] } :
            MeetingParticipants).expandedGroups = some eg ∧
      expandGroupsPass docC9.people = some eg :=
  c9_expansion_independent_confirmed.1 docC9
    { organizer := none,
      attendees := [{ name := .vStr "Eng", email := .vStr "eng@co.com",
                      isGroup := false, memberCount := none }],
      expandedGroups := some [engPairC9] }
    (by rfl)

/-! Development for the findDocument claim. -/

theorem mem_insertByTimeDesc (x d : Document) (l : List Document) :
    x ∈ insertByTimeDesc d l ↔ x = d ∨ x ∈ l := by
  induction l with
  | nil => simp [insertByTimeDesc]
  | cons e r ih =>
    unfold insertByTimeDesc
    split
    · simp only [List.mem_cons, ih]
      tauto
    · simp only [List.mem_cons]

theorem mem_sortByTimeDesc (x : Document) (l : List Document) :
    x ∈ sortByTimeDesc l ↔ x ∈ l := by
  induction l with
  | nil => simp [sortByTimeDesc]
  | cons d r ih =>
    simp only [sortByTimeDesc, mem_insertByTimeDesc, ih, List.mem_cons]

theorem sortByTimeDesc_head_max (l : List Document) :
    l ≠ [] → ∃ d, (sortByTimeDesc l).head? = some d ∧ d ∈ l ∧
      ∀ e ∈ l, timeOf e ≤ timeOf d := by
  induction l with
  | nil => intro hne; exact absurd rfl hne
  | cons a r ih =>
    intro _
    by_cases hr : r = []
    · subst hr
      exact ⟨a, rfl, List.mem_singleton.mpr rfl, by simp⟩
    · obtain ⟨m, hm1, hm2, hm3⟩ := ih hr
      obtain ⟨t, ht⟩ : ∃ t, sortByTimeDesc r = m :: t := by
        cases hs : sortByTimeDesc r with
        | nil => rw [hs] at hm1; simp at hm1
        | cons x t =>
          rw [hs] at hm1
          exact ⟨t, by rw [Option.some.inj hm1]⟩
      unfold sortByTimeDesc
      rw [ht]
      unfold insertByTimeDesc
      split
      · rename_i hgt
        refine ⟨m, rfl, List.mem_cons_of_mem a hm2, ?_⟩
        intro e he
        rcases List.mem_cons.mp he with rfl | her
        · exact Nat.le_of_lt hgt
        · exact hm3 e her
      · rename_i hle
        refine ⟨a, rfl, List.mem_cons_self a r, ?_⟩
        intro e he
        rcases List.mem_cons.mp he with rfl | her
        · exact Nat.le_refl _
        · exact Nat.le_trans (hm3 e her) (Nat.le_of_not_lt hle)

/-- C7: an exact id match is returned directly, bypassing title matching;
with no id match, the result is absent when no title matches every
significant query word, and otherwise is a matching document of maximal
updated time. -/
theorem c7_findDocument_confirmed :
    (∀ state q d,
      (getDocuments state).find? (fun x => decide (x.id = q)) = some d →
      findDocument q state = some d ∧ d.id = q) ∧
    (∀ state q, (∀ d ∈ getDocuments state, d.id ≠ q) →
      ((getDocuments state).filter (titleMatches (queryWords q)) = [] →
        findDocument q state = none) ∧
      (∀ fl, (getDocuments state).filter (titleMatches (queryWords q)) = fl →
        fl ≠ [] →
        ∃ d, findDocument q state = some d ∧ d ∈ fl ∧
          ∀ e ∈ fl, timeOf e ≤ timeOf d)) := by
  constructor
  · intro state q d h
    constructor
    · unfold findDocument
      rw [h]
    · have hp := List.find?_some h
      exact of_decide_eq_true hp
  · intro state q hno
    have hfind : (getDocuments state).find? (fun x => decide (x.id = q)) = none := by
      rw [List.find?_eq_none]
      intro x hx
      simp [hno x hx]
    constructor
    · intro hempty
      unfold findDocument
      rw [hfind, hempty]
      rfl
    · intro fl hfl hne
      obtain ⟨d, hd1, hd2, hd3⟩ := sortByTimeDesc_head_max fl hne
      refine ⟨d, ?_, hd2, hd3⟩
      unfold findDocument
      rw [hfind, hfl]
      exact hd1

/-- The two documents of the exact-id scenario. -/
def docC7a : Document :=
  { id := "d1", title := some "Weekly Sync", type := some "meeting",
    updated_at := some 10 }

/-- The later-updated second document. -/
def docC7b : Document :=
  { id := "d2", title := some "Weekly Standup", type := some "meeting",
    updated_at := some 20 }

/-- A store holding both documents. -/
def stC7 : CacheState := { documents := [("a", docC7a), ("b", docC7b)] }

/-- C7 witness: the exact-id branch evaluated on the concrete store. -/
theorem c7_findDocument_witness :
    findDocument "d2" stC7 = some docC7b ∧ docC7b.id = "d2" :=
  c7_findDocument_confirmed.1 stC7 "d2" docC7b (by rfl)

/-! Development for the search-scope claim. -/

theorem searchFilterLoop_mem (ql : String) (l : List Document) :
    ∀ out, searchFilterLoop ql l = some out → ∀ d ∈ out, d ∈ l := by
  induction l with
  | nil =>
    intro out h d hd
    have : out = ([] : List Document) := (Option.some.inj h).symm
    subst this
    cases hd
  | cons a rest ih =>
    intro out h d hd
    rw [searchFilterLoop] at h
    simp only [Option.bind_eq_bind, Option.bind_eq_some] at h
    obtain ⟨names, _, tl, htl, h⟩ := h
    have hout := (Option.some.inj h).symm
    subst hout
    split at hd
    · rcases List.mem_cons.mp hd with rfl | hmem
      · exact List.mem_cons_self _ _
      · exact List.mem_cons_of_mem _ (ih tl htl d hmem)
    · exact List.mem_cons_of_mem _ (ih tl htl d hd)

theorem mem_getMeetings (st : CacheState) (d : Document)
    (h : d ∈ getMeetings st) :
    d.type = some "meeting" ∧ d.was_trashed ≠ some true := by
  unfold getMeetings at h
  rw [List.mem_filter] at h
  obtain ⟨_, hp⟩ := h
  rw [Bool.and_eq_true] at hp
  obtain ⟨h1, h2⟩ := hp
  refine ⟨of_decide_eq_true h1, ?_⟩
  simp only [Bool.not_eq_true'] at h2
  intro hw
  rw [decide_eq_false_iff_not] at h2
  exact h2 hw

/-- A soft-trashed non-meeting document that `findDocument` can still
return. -/
def trashedDocC10 : Document :=
  { id := "t1", title := some "Budget Meeting", type := some "note",
    was_trashed := some true, updated_at := some 5 }

/-- A store holding only the trashed non-meeting document. -/
def stC10 : CacheState := { documents := [("k", trashedDocC10)] }

/-- C10: findDocument matches over all documents (it returns a trashed
non-meeting document for some store), while every document searchDocuments
returns has type meeting and is not soft-trashed. -/
theorem c10_search_scope_confirmed :
    (findDocument "budget" stC10 = some trashedDocC10 ∧
      trashedDocC10.was_trashed = some true ∧
      trashedDocC10.type = some "note" ∧
      trashedDocC10.type ≠ some "meeting") ∧
    (∀ q st out, searchDocuments q st = some out →
      ∀ d ∈ out, d.type = some "meeting" ∧ d.was_trashed ≠ some true) := by
  refine ⟨⟨by rfl, rfl, rfl, by decide⟩, ?_⟩
  intro q st out h d hd
  unfold searchDocuments at h
  simp only [Option.bind_eq_bind, Option.bind_eq_some] at h
  obtain ⟨matched, hm, h⟩ := h
  have hout := (Option.some.inj h).symm
  subst hout
  have hd' := (mem_sortByTimeDesc d matched).mp hd
  exact mem_getMeetings st d (searchFilterLoop_mem _ _ matched hm d hd')

/-- A plain meeting document for evaluating the search-scope claim. -/
def mtgC10 : Document :=
  { id := "m1", title := some "Sync", type := some "meeting",
    updated_at := some 3 }

/-- A store holding only that meeting. -/
def stC10w : CacheState := { documents := [("k", mtgC10)] }

/-- C10 witness: the searchDocuments part evaluated on the concrete store. -/
theorem c10_search_scope_witness :
    mtgC10.type = some "meeting" ∧ mtgC10.was_trashed ≠ some true :=
  c10_search_scope_confirmed.2 "sync" stC10w [mtgC10] (by rfl) mtgC10
    (List.mem_singleton.mpr rfl)

/-! Development for the loadCache claim. -/

theorem loadCache_some_eq (home platform : String) (g : CacheGlobals)
    (t : Nat) (raw : String) :
    loadCache home platform { cacheFile := some (t, raw) } g =
      if (truthy g.cachedState && decide (t = g.cacheModTime)) = true then
        .ok (g.cachedState, g)
      else
        match jsonParse raw with
        | none => .error .parseError
        | some data =>
          match jsonParseValue (jsGet data "cache") with
          | none => .error .parseError
          | some cache =>
            match jsGetStrict cache "state" with
            | .error e => .error e
            | .ok st => .ok (st, { cachedState := st, cacheModTime := t }) := rfl

theorem loadCache_present_cases (home platform : String) (g : CacheGlobals)
    (t : Nat) (raw : String) :
    loadCache home platform { cacheFile := some (t, raw) } g =
      .ok (g.cachedState, g) ∨
    (∃ st, loadCache home platform { cacheFile := some (t, raw) } g =
      .ok (st, { cachedState := st, cacheModTime := t })) ∨
    loadCache home platform { cacheFile := some (t, raw) } g =
      .error .parseError ∨
    loadCache home platform { cacheFile := some (t, raw) } g =
      .error .typeError := by
  rw [loadCache_some_eq]
  split
  · exact Or.inl rfl
  · cases hj : jsonParse raw with
    | none => exact Or.inr (Or.inr (Or.inl rfl))
    | some data =>
      dsimp only
      cases hv : jsonParseValue (jsGet data "cache") with
      | none => exact Or.inr (Or.inr (Or.inl rfl))
      | some cache =>
        dsimp only
        cases hs : jsGetStrict cache "state" with
        | error e =>
          have he : e = .typeError := by
            unfold jsGetStrict at hs
            split at hs
            · exact (Except.error.inj hs).symm
            · exact (Except.error.inj hs).symm
            · exact Except.noConfusion hs
          subst he
          exact Or.inr (Or.inr (Or.inr rfl))
        | ok st => exact Or.inr (Or.inl ⟨st, rfl⟩)

/-- A present cache file whose text parses to an object with no `cache`
field, making the second `JSON.parse(undefined)` throw a SyntaxError. -/
def fsC8bad : FileSystem := { cacheFile := some (5, "\x7b\x7d") }

/-- C8 counterexample: the cache file exists, yet loadCache raises — a
SyntaxError from the nested parse — so the missing file is not the only
raising condition. -/
theorem c8_loadCache_cex :
    loadCache "/h" "darwin" fsC8bad {} = .error .parseError ∧
    fsC8bad.cacheFile ≠ none := by
  refine ⟨by rfl, ?_⟩
  intro h
  exact Option.noConfusion h

/-- C8 amended: a missing file raises the NotFound error naming the expected
location; a present file with matching modification time and truthy cached
state returns the cached state unchanged; a present file never raises
NotFound (though parse failures raise SyntaxError and a null/undefined parsed
cache raises TypeError); and any successful load either returned the cache
untouched or replaced it with the newly parsed state and the file's
modification time. -/
theorem c8_loadCache_amended :
    (∀ home platform g, loadCache home platform { cacheFile := none } g =
      .error (.notFound ("Granola cache not found at " ++
        getCachePath home platform ++ ". Is Granola installed?"))) ∧
    (∀ home platform g t raw, truthy g.cachedState = true →
      t = g.cacheModTime →
      loadCache home platform { cacheFile := some (t, raw) } g =
        .ok (g.cachedState, g)) ∧
    (∀ home platform fs g p, fs.cacheFile = some p →
      ∀ msg, loadCache home platform fs g ≠ .error (.notFound msg)) ∧
    (∀ home platform g t raw st g',
      loadCache home platform { cacheFile := some (t, raw) } g = .ok (st, g') →
      (g' = g ∧ st = g.cachedState) ∨
      (g'.cachedState = st ∧ g'.cacheModTime = t)) := by
  refine ⟨fun home platform g => rfl, ?_, ?_, ?_⟩
  · intro home platform g t raw h1 h2
    rw [loadCache_some_eq, if_pos (by simp [h1, h2])]
  · intro home platform fs g p hp msg h
    obtain ⟨t, raw⟩ := p
    have hfs : fs = { cacheFile := some (t, raw) } := by
      cases fs with
      | mk cf =>
        simp only at hp
        rw [hp]
    subst hfs
    rcases loadCache_present_cases home platform g t raw with
      hc | ⟨st, hc⟩ | hc | hc <;> rw [hc] at h <;> simp at h
  · intro home platform g t raw st g' h
    rcases loadCache_present_cases home platform g t raw with
      hc | ⟨st2, hc⟩ | hc | hc
    · rw [hc] at h
      have hpair := Except.ok.inj h
      have h1 := congrArg Prod.fst hpair
      have h2 := congrArg Prod.snd hpair
      simp only at h1 h2
      exact Or.inl ⟨h2.symm, h1.symm⟩
    · rw [hc] at h
      have hpair := Except.ok.inj h
      have h1 := congrArg Prod.fst hpair
      have h2 := congrArg Prod.snd hpair
      simp only at h1 h2
      rw [← h2, ← h1]
      exact Or.inr ⟨rfl, rfl⟩
    · rw [hc] at h
      exact Except.noConfusion h
    · rw [hc] at h
      exact Except.noConfusion h

/-- C8 witness: the amended parts evaluated on concrete file systems and
globals. -/
theorem c8_loadCache_witness :
    (loadCache "/h" "darwin" { cacheFile := none }
        { cachedState := .vNum 9, cacheModTime := 7 } =
      .error (.notFound ("Granola cache not found at " ++
        getCachePath "/h" "darwin" ++ ". Is Granola installed?"))) ∧
    (loadCache "/h" "darwin" { cacheFile := some (7, "x") }
        { cachedState := .vNum 9, cacheModTime := 7 } =
      .ok (.vNum 9, { cachedState := .vNum 9, cacheModTime := 7 })) ∧
    (loadCache "/h" "darwin" { cacheFile := some (7, "x") }
        { cachedState := .vNum 9, cacheModTime := 7 } ≠
      .error (.notFound "zzz")) :=
  ⟨c8_loadCache_amended.1 "/h" "darwin"
     { cachedState := .vNum 9, cacheModTime := 7 },
   c8_loadCache_amended.2.1 "/h" "darwin"
     { cachedState := .vNum 9, cacheModTime := 7 } 7 "x" (by rfl) (by rfl),
   c8_loadCache_amended.2.2.1 "/h" "darwin" { cacheFile := some (7, "x") }
     { cachedState := .vNum 9, cacheModTime := 7 } (7, "x") rfl "zzz"⟩

end Granola
